import Mathlib

/-!
Verification of the 3D image-processing notebook.

Shallow embedding of `plot_3d_image_processing.ipynb`.  The notebook loads a
3D microscopy volume (`data = util.img_as_float(cells3d()[:, 1, :, :])`),
displays slices of it (`show_plane`, `display`, `explore_slices`), and applies
three exposure transforms (`exposure.adjust_gamma`, `exposure.equalize_hist`,
`exposure.rescale_intensity` after `np.percentile` clipping).

Arrays are embedded as nested lists; pixel intensities as exact rationals
(and as reals where a real power law is involved).  The scikit-image / numpy
routines called by the notebook are not part of this repository; they are
modelled here, faithfully to their documented float-image semantics, so the
notebook's claims can be settled against explicit definitions.
-/

namespace Cells3D

/-- A 2D image: a list of rows of pixels, indexed `[row, column]`. -/
abbrev Image (α : Type) : Type := List (List α)

/-- A 3D volume: a list of 2D planes, indexed `[plane, row, column]`. -/
abbrev Volume (α : Type) : Type := List (Image α)

/-- A 4D multichannel stack, indexed `[plane, channel, row, column]`
(the layout of the `cells3d` sample dataset). -/
abbrev Stack4 (α : Type) : Type := List (List (Image α))

/-- Pointwise (element-wise) map over a volume, as numpy ufuncs act on arrays. -/
def vmap {α β : Type} (f : α → β) (v : Volume α) : Volume β :=
  v.map (fun plane => plane.map (fun row => row.map f))

/-- All pixels of a volume, flattened in row-major order (numpy `ravel`). -/
def flattenV {α : Type} (v : Volume α) : List α :=
  (v.map List.flatten).flatten

/-- The nested shape of a volume: for each plane, the list of its row lengths.
Two volumes have the same (3D, rectangular) shape iff `shapeOf` agrees. -/
def shapeOf {α : Type} (v : Volume α) : List (List ℕ) :=
  v.map (fun plane => plane.map List.length)

/-- The volume `v` is a rectangular 3D array of shape `(p, r, c)`. -/
def HasShape3 {α : Type} (v : Volume α) (p r c : ℕ) : Prop :=
  shapeOf v = List.replicate p (List.replicate r c)

/-- The stack `a` is a rectangular 4D array of shape `(p, ch, r, c)`. -/
def HasShape4 {α : Type} (a : Stack4 α) (p ch r c : ℕ) : Prop :=
  a.length = p ∧ ∀ chans ∈ a, chans.length = ch ∧
    ∀ im ∈ chans, im.length = r ∧ ∀ row ∈ im, row.length = c

instance {α : Type} (a : Stack4 α) (p ch r c : ℕ) :
    Decidable (HasShape4 a p ch r c) := by
  unfold HasShape4
  exact inferInstance

/-- Minimum of a list of rationals (numpy `min`; `0` as the convention for the
empty array, on which numpy would raise). -/
def listMin : List ℚ → ℚ
  | [] => 0
  | x :: xs => xs.foldl min x

/-- Maximum of a list of rationals (numpy `max`; `1` for the empty array). -/
def listMax : List ℚ → ℚ
  | [] => 1
  | x :: xs => xs.foldl max x

/-! ## Loading the data (cell 4)

`data = util.img_as_float(cells3d()[:, 1, :, :])`. -/

/-- Channel extraction `cells3d()[:, ch, :, :]`: one channel taken from the 4D stack. -/
def extractChannel {α : Type} (a : Stack4 α) (ch : ℕ) : Volume α :=
  a.map (fun chans => chans.getD ch [])

/-- Modelled from the spec: `util.img_as_float` is library code, not part of
this repository.  On the `uint16` sample data it divides each pixel by 65535,
yielding floats in `[0, 1]`.  `uint16` pixels are embedded as naturals
(`< 65536`). -/
def img_as_float (v : Volume ℕ) : Volume ℚ :=
  vmap (fun n : ℕ => (n : ℚ) / 65535) v

/-- The loaded volume of cell 4: channel 1 of the 4D stack, as floats. -/
def loadData (a : Stack4 ℕ) : Volume ℚ :=
  img_as_float (extractChannel a 1)

/-! ## `io.imshow` and the try/except cell (cell 6) -/

/-- The message of the raised error, abstractly. -/
def imshowMsg : String := "Invalid dimensions for image data"

/-- Modelled from the spec: `io.imshow` is library code, not part of this
repository.  Per the spec it is a 2D-only display routine: it accepts a 2D
grayscale array `[row, col]` or a 2D multichannel array `[row, col, channel]`
with 3 or 4 channels, and raises a type/shape error on anything else, in
particular on a 3D grayscale volume.  It is modelled on the array's shape. -/
def imshow (shape : List ℕ) : Except String Unit :=
  if shape.length = 2 then Except.ok ()
  else if shape.length = 3 ∧ (shape.getD 2 0 = 3 ∨ shape.getD 2 0 = 4) then Except.ok ()
  else Except.error imshowMsg

/-- Cell 6: `try: io.imshow(data, cmap="gray") except TypeError as e: print(str(e))`.
The error is caught and its message printed; the cell returns normally either
way.  The result is the printed message, if any. -/
def imshowGuarded (shape : List ℕ) : Option String :=
  match imshow shape with
  | Except.ok _ => none
  | Except.error e => some e

/-! ## The grid display `display` (cell 10) -/

/-- Python slicing `l[::step]` for `step ≥ 1`: every `step`-th element,
starting from index 0.  The counter is the number of elements still to skip
before the next one is kept. -/
def everyNthAux {α : Type} : List α → ℕ → ℕ → List α
  | [], _, _ => []
  | x :: xs, step, 0 => x :: everyNthAux xs step (step - 1)
  | _ :: xs, step, k + 1 => everyNthAux xs step k

/-- Python slicing `l[::step]`. -/
def everyNth {α : Type} (l : List α) (step : ℕ) : List α :=
  everyNthAux l step 0

/-- The helper `display(im3d, cmap, step)` of cell 10: a 5×6 grid of subplots is created,
`vmin`/`vmax` are the global extrema of the volume, and
`zip(axes.flatten(), im3d[::step])` renders each kept slice into the next of
the 30 subplots with the shared bounds — `zip` truncates to the shorter of
the two.  The result records, per rendered subplot, the slice and the bounds
passed to `ax.imshow`. -/
def display (im3d : Volume ℚ) (step : ℕ) : List (Image ℚ × ℚ × ℚ) :=
  let vmin := listMin (flattenV im3d)
  let vmax := listMax (flattenV im3d)
  ((everyNth im3d step).take 30).map (fun im => (im, vmin, vmax))

/-! ## The interactive explorer `explore_slices` (cell 12) -/

/-- The `ipywidgets` slider `@interact(plane=(0, N - 1))` of `explore_slices`:
integer positions from 0 to `N - 1` inclusive. -/
def sliderRangeValid (N : ℕ) (p : ℤ) : Prop :=
  0 ≤ p ∧ p ≤ (N : ℤ) - 1

instance (N : ℕ) (p : ℤ) : Decidable (sliderRangeValid N p) :=
  inferInstanceAs (Decidable (_ ∧ _))

/-- The body of the `display_slice` callback indexes `data[plane]`. -/
def display_slice (data : Volume ℚ) (plane : ℕ) : Option (Image ℚ) :=
  data[plane]?

/-! ## Percentile clipping (cell 23)

`vmin, vmax = np.percentile(data, q=(0.5, 99.5))` followed by
`clipped_data = exposure.rescale_intensity(data, in_range=(vmin, vmax),
out_range=np.float32)`. -/

/-- Modelled from the spec: `np.percentile` is library code, not part of this
repository.  With the default linear interpolation it sorts the flattened
data; for a list of length `n` the `q`-th percentile sits at fractional
position `q / 100 * (n - 1)`, linearly interpolated between the two
neighbouring order statistics. -/
def percentile (xs : List ℚ) (q : ℚ) : ℚ :=
  let s := List.insertionSort (· ≤ ·) xs
  let pos : ℚ := q / 100 * ((s.length : ℚ) - 1)
  let i : ℕ := ⌊pos⌋₊
  let lower := s.getD i 0
  let upper := s.getD (i + 1) lower
  lower + (pos - (i : ℚ)) * (upper - lower)

/-- numpy `clip(x, lo, hi)`. -/
def clip (x lo hi : ℚ) : ℚ := min (max x lo) hi

/-- Modelled from the spec: skimage's `intensity_range` for
`out_range=np.float32` — the dtype range `(-1, 1)`, with the negative part
clipped away (giving `(0, 1)`) when the input range is non-negative. -/
def float32Range (clipNegative : Bool) : ℚ × ℚ :=
  if clipNegative then (0, 1) else (-1, 1)

/-- Modelled from the spec: `exposure.rescale_intensity(image, in_range=(imin,
imax), out_range=np.float32)` is library code, not part of this repository.
On a float image it clips to `[imin, imax]`; then, when `imin ≠ imax`, it
stretches linearly onto the output range `[omin, omax]`, and otherwise just
clips the (constant) result to `[omin, omax]`. -/
def rescale_intensity (v : Volume ℚ) (imin imax : ℚ) : Volume ℚ :=
  let o := float32Range (decide (0 ≤ imin))
  if imin ≠ imax then
    vmap (fun x => (clip x imin imax - imin) / (imax - imin) * (o.2 - o.1) + o.1) v
  else
    vmap (fun x => clip (clip x imin imax) o.1 o.2) v

/-- The `vmin` of cell 23: the 0.5th percentile of the volume. -/
def pLow (v : Volume ℚ) : ℚ := percentile (flattenV v) (1 / 2)

/-- The `vmax` of cell 23: the 99.5th percentile of the volume. -/
def pHigh (v : Volume ℚ) : ℚ := percentile (flattenV v) (199 / 2)

/-- The `clipped_data` of cell 23. -/
def clipped_data (v : Volume ℚ) : Volume ℚ :=
  rescale_intensity v (pLow v) (pHigh v)

/-! ## Histogram equalization (cell 17)

`equalized_data = exposure.equalize_hist(data)` with the default
`nbins = 256`.  `equalize_hist` computes the image histogram over its value
range, the normalized cumulative distribution, and maps each pixel through
`np.interp(image.flat, bin_centers, img_cdf)`. -/

/-- Modelled from the spec: `np.histogram`'s bin range — the data's `(min,
max)`, widened by 1/2 on each side when they coincide, and `(0, 1)` for an
empty array. -/
def histRange (xs : List ℚ) : ℚ × ℚ :=
  match xs with
  | [] => (0, 1)
  | _ :: _ =>
    let lo := listMin xs
    let hi := listMax xs
    if lo = hi then (lo - 1 / 2, hi + 1 / 2) else (lo, hi)

/-- The left edge of bin `i` out of `nbins` equal bins over `[lo, hi]`. -/
def binEdge (lo hi : ℚ) (nbins i : ℕ) : ℚ :=
  lo + (i : ℚ) * (hi - lo) / (nbins : ℚ)

/-- Modelled from the spec: `np.histogram` bin counts — bin `i` counts the
pixels in `[edge i, edge (i+1))`, the last bin also including its right
edge. -/
def histCounts (xs : List ℚ) (lo hi : ℚ) (nbins : ℕ) : List ℕ :=
  (List.range nbins).map fun i =>
    if i + 1 = nbins then
      (xs.filter (fun x => decide (binEdge lo hi nbins i ≤ x) &&
        decide (x ≤ binEdge lo hi nbins (i + 1)))).length
    else
      (xs.filter (fun x => decide (binEdge lo hi nbins i ≤ x) &&
        decide (x < binEdge lo hi nbins (i + 1)))).length

/-- The bin centers `(bin_edges[:-1] + bin_edges[1:]) / 2`. -/
def binCenters (lo hi : ℚ) (nbins : ℕ) : List ℚ :=
  (List.range nbins).map fun i =>
    (binEdge lo hi nbins i + binEdge lo hi nbins (i + 1)) / 2

/-- numpy `cumsum` of the histogram counts. -/
def cumsum (l : List ℕ) : List ℕ :=
  (List.range l.length).map (fun i => (l.take (i + 1)).sum)

/-- Modelled from the spec: `exposure.cumulative_distribution` — the
cumulative histogram divided by its last entry. -/
def cdfOf (counts : List ℕ) : List ℚ :=
  (cumsum counts).map
    (fun c : ℕ => (c : ℚ) / (((cumsum counts).getLastD 0 : ℕ) : ℚ))

/-- Modelled from the spec: `np.interp t xp fp` on the list of `(xp, fp)`
pairs — `fp.head` below the first node, `fp.last` above the last one, and
linear interpolation on each segment in between. -/
def interp (t : ℚ) : List (ℚ × ℚ) → ℚ
  | [] => 0
  | [(_, f1)] => f1
  | (x1, f1) :: (x2, f2) :: rest =>
    if t ≤ x1 then f1
    else if t ≤ x2 then f1 + (t - x1) / (x2 - x1) * (f2 - f1)
    else interp t ((x2, f2) :: rest)

/-- Modelled from the spec: `exposure.equalize_hist(data)` with the default
256 bins, as called in cell 17. -/
def equalize_hist (v : Volume ℚ) : Volume ℚ :=
  let xs := flattenV v
  let lo := (histRange xs).1
  let hi := (histRange xs).2
  let nodes := (binCenters lo hi 256).zip (cdfOf (histCounts xs lo hi 256))
  vmap (fun t => interp t nodes) v

/-! ## Gamma correction (cell 15)

`gamma_low = exposure.adjust_gamma(data, gamma=0.5)` and
`gamma_high = exposure.adjust_gamma(data, gamma=1.5)`.  The power law needs
real exponents, so this transform lives on real-valued volumes. -/

/-- Modelled from the spec: `exposure.adjust_gamma(image, gamma, gain)` is
library code, not part of this repository.  On a float image (scale 1) it is
the pure power law `gain * x ** gamma`; it rejects `gamma < 0` and negative
images, so those lie outside its domain. -/
noncomputable def adjust_gamma (v : Volume ℝ) (gamma gain : ℝ) : Volume ℝ :=
  vmap (fun x => x ^ gamma * gain) v

/-- The mean pixel intensity of a real volume. -/
noncomputable def vmean (v : Volume ℝ) : ℝ :=
  (flattenV v).sum / ((flattenV v).length : ℝ)

/-- A rational volume viewed as a real one. -/
def toReal (v : Volume ℚ) : Volume ℝ :=
  vmap (fun q : ℚ => (q : ℝ)) v

/-! ## Helper lemmas -/

theorem flattenV_vmap {α β : Type} (f : α → β) (v : Volume α) :
    flattenV (vmap f v) = (flattenV v).map f := by
  simp [flattenV, vmap, List.map_flatten, List.map_map, Function.comp_def]

theorem shapeOf_vmap {α β : Type} (f : α → β) (v : Volume α) :
    shapeOf (vmap f v) = shapeOf v := by
  simp [shapeOf, vmap, List.map_map, Function.comp_def]

theorem everyNthAux_length {α : Type} (s : ℕ) (hs : 1 ≤ s) :
    ∀ (l : List α) (k : ℕ), k < s →
      (everyNthAux l s k).length = (l.length + (s - 1 - k)) / s := by
  intro l
  induction l with
  | nil =>
    intro k _
    simp only [everyNthAux, List.length_nil, Nat.zero_add]
    exact (Nat.div_eq_of_lt (by omega)).symm
  | cons x xs ih =>
    intro k hk
    cases k with
    | zero =>
      have h1 : xs.length + 1 + (s - 1 - 0) = xs.length + s := by omega
      have h2 : s - 1 - (s - 1) = 0 := by omega
      rw [show everyNthAux (x :: xs) s 0 = x :: everyNthAux xs s (s - 1) from rfl,
        List.length_cons, ih (s - 1) (by omega), h2, Nat.add_zero]
      simp only [List.length_cons, h1]
      rw [Nat.add_div_right _ (by omega)]
      simp
    | succ k' =>
      have h1 : xs.length + 1 + (s - 1 - (k' + 1)) = xs.length + (s - 1 - k') := by
        omega
      simp only [everyNthAux, List.length_cons, ih k' (by omega), h1]

theorem clip_le (x lo hi : ℚ) : clip x lo hi ≤ hi := min_le_right _ _

theorem le_clip (x lo hi : ℚ) (h : lo ≤ hi) : lo ≤ clip x lo hi :=
  le_min (le_max_right _ _) h

theorem sortedGetD_nonneg (xs : List ℚ) (hpos : ∀ y ∈ xs, 0 ≤ y) (i : ℕ) (d : ℚ)
    (hd : 0 ≤ d) : 0 ≤ (List.insertionSort (· ≤ ·) xs).getD i d := by
  rcases Nat.lt_or_ge i (List.insertionSort (· ≤ ·) xs).length with h | h
  · rw [List.getD_eq_getElem _ _ h]
    exact hpos _ ((List.perm_insertionSort _ xs).mem_iff.mp (List.getElem_mem h))
  · rw [List.getD_eq_default _ _ h]
    exact hd

theorem percentile_nonneg (xs : List ℚ) (q : ℚ) (hq : 0 ≤ q)
    (hpos : ∀ y ∈ xs, 0 ≤ y) : 0 ≤ percentile xs q := by
  unfold percentile
  cases hxs : xs with
  | nil => simp
  | cons a l =>
    rw [← hxs]
    set s := List.insertionSort (· ≤ ·) xs with hs
    have hlen : 1 ≤ s.length := by
      rw [hs, (List.perm_insertionSort _ xs).length_eq, hxs]
      exact Nat.succ_le_succ (Nat.zero_le _)
    set pos : ℚ := q / 100 * ((s.length : ℚ) - 1) with hposdef
    have hpos0 : 0 ≤ pos := by
      apply mul_nonneg (by positivity)
      have : (1 : ℚ) ≤ (s.length : ℚ) := by exact_mod_cast hlen
      linarith
    have hfrac0 : (0 : ℚ) ≤ pos - (⌊pos⌋₊ : ℚ) := sub_nonneg.mpr (Nat.floor_le hpos0)
    have hfrac1 : pos - (⌊pos⌋₊ : ℚ) ≤ 1 := by
      have := Nat.lt_floor_add_one pos
      push_cast at this ⊢
      linarith
    have hlow : 0 ≤ s.getD ⌊pos⌋₊ 0 := sortedGetD_nonneg xs hpos _ _ le_rfl
    have hup : 0 ≤ s.getD (⌊pos⌋₊ + 1) (s.getD ⌊pos⌋₊ 0) :=
      sortedGetD_nonneg xs hpos _ _ hlow
    set lower := s.getD ⌊pos⌋₊ 0
    set upper := s.getD (⌊pos⌋₊ + 1) lower
    nlinarith [mul_nonneg hfrac0 hup, mul_nonneg (sub_nonneg.mpr hfrac1) hlow]

theorem rescale_mem_unit (v : Volume ℚ) (imin imax : ℚ) (himin : 0 ≤ imin) :
    ∀ x ∈ flattenV (rescale_intensity v imin imax), 0 ≤ x ∧ x ≤ 1 := by
  intro x hx
  unfold rescale_intensity at hx
  rw [decide_eq_true himin] at hx
  by_cases h : imin = imax
  · rw [if_neg (by simpa using h), flattenV_vmap] at hx
    obtain ⟨y, _, rfl⟩ := List.mem_map.mp hx
    rw [show (float32Range true).1 = 0 from rfl, show (float32Range true).2 = 1 from rfl]
    exact ⟨le_clip _ _ _ (by norm_num), clip_le _ _ _⟩
  · rw [if_pos h, flattenV_vmap] at hx
    obtain ⟨y, _, rfl⟩ := List.mem_map.mp hx
    rw [show (float32Range true).1 = 0 from rfl, show (float32Range true).2 = 1 from rfl,
      sub_zero, mul_one, add_zero]
    rcases lt_or_gt_of_ne h with hlt | hgt
    · constructor
      · apply div_nonneg _ (by linarith)
        have := le_clip y imin imax (le_of_lt hlt)
        linarith
      · rw [div_le_one (by linarith)]
        have := clip_le y imin imax
        linarith
    · have hc : clip y imin imax = imax := by
        unfold clip
        exact min_eq_right (le_trans (le_of_lt hgt) (le_max_right _ _))
      rw [hc, div_self (by intro h0; apply h; linarith [sub_eq_zero.mp h0])]
      norm_num

theorem clipped_data_mem_unit (v : Volume ℚ) (hpos : ∀ y ∈ flattenV v, 0 ≤ y) :
    ∀ x ∈ flattenV (clipped_data v), 0 ≤ x ∧ x ≤ 1 :=
  rescale_mem_unit v _ _ (percentile_nonneg _ _ (by norm_num) hpos)

theorem take_sum_le (l : List ℕ) (n : ℕ) : (l.take n).sum ≤ l.sum := by
  have h := congrArg List.sum (List.take_append_drop n l)
  rw [List.sum_append] at h
  omega

theorem cumsum_getLastD (l : List ℕ) : (cumsum l).getLastD 0 = l.sum := by
  cases l with
  | nil => rfl
  | cons x xs =>
    rw [List.getLastD_eq_getLast?, List.getLast?_eq_getElem?]
    have hlen : (cumsum (x :: xs)).length = xs.length + 1 := by
      simp [cumsum]
    rw [hlen]
    simp only [cumsum, Nat.add_sub_cancel, List.getElem?_map, List.getElem?_range,
      List.length_cons]
    rw [List.getElem?_range (by omega)]
    simp [List.take_of_length_le]

theorem cdfOf_mem_unit (counts : List ℕ) : ∀ c ∈ cdfOf counts, 0 ≤ c ∧ c ≤ 1 := by
  intro c hc
  unfold cdfOf at hc
  rw [cumsum_getLastD] at hc
  simp only [cumsum, List.map_map, List.mem_map, List.mem_range,
    Function.comp_apply] at hc
  obtain ⟨i, _, rfl⟩ := hc
  constructor
  · positivity
  · apply div_le_one_of_le₀
    · exact_mod_cast take_sum_le counts (i + 1)
    · positivity

theorem interp_mem_unit (t : ℚ) (ps : List (ℚ × ℚ))
    (h : ∀ p ∈ ps, 0 ≤ p.2 ∧ p.2 ≤ 1) : 0 ≤ interp t ps ∧ interp t ps ≤ 1 := by
  induction ps with
  | nil => simp [interp]
  | cons p1 rest ih =>
    cases rest with
    | nil =>
      obtain ⟨a, b⟩ := p1
      simpa [interp] using h (a, b) (by simp)
    | cons p2 rest2 =>
      obtain ⟨x1, f1⟩ := p1
      obtain ⟨x2, f2⟩ := p2
      have h1 := h (x1, f1) (by simp)
      have h2 := h (x2, f2) (by simp)
      by_cases ht1 : t ≤ x1
      · simpa [interp, ht1] using h1
      · by_cases ht2 : t ≤ x2
        · simp only [interp, if_neg ht1, if_pos ht2]
          have hx : x1 < t := lt_of_not_le ht1
          have hx12 : x1 < x2 := lt_of_lt_of_le hx ht2
          have hr0 : 0 ≤ (t - x1) / (x2 - x1) :=
            div_nonneg (by linarith) (by linarith)
          have hr1 : (t - x1) / (x2 - x1) ≤ 1 :=
            div_le_one_of_le₀ (by linarith) (by linarith)
          obtain ⟨h1a, h1b⟩ := h1
          obtain ⟨h2a, h2b⟩ := h2
          constructor <;> nlinarith
        · simp only [interp, if_neg ht1, if_neg ht2]
          exact ih (fun p hp => h p (List.mem_cons_of_mem _ hp))

theorem equalize_hist_mem_unit (v : Volume ℚ) :
    ∀ x ∈ flattenV (equalize_hist v), 0 ≤ x ∧ x ≤ 1 := by
  intro x hx
  unfold equalize_hist at hx
  rw [flattenV_vmap] at hx
  obtain ⟨t, _, rfl⟩ := List.mem_map.mp hx
  apply interp_mem_unit
  intro p hp
  obtain ⟨a, b⟩ := p
  exact cdfOf_mem_unit _ _ (List.of_mem_zip hp).2

theorem img_as_float_mem_unit (raw : Volume ℕ) (hraw : ∀ n ∈ flattenV raw, n < 65536) :
    ∀ x ∈ flattenV (img_as_float raw), 0 ≤ x ∧ x ≤ 1 := by
  intro x hx
  unfold img_as_float at hx
  rw [flattenV_vmap] at hx
  obtain ⟨n, hn, rfl⟩ := List.mem_map.mp hx
  have hb := hraw n hn
  constructor
  · positivity
  · rw [div_le_one (by norm_num)]
    exact_mod_cast Nat.lt_succ_iff.mp hb

theorem rpow_mem_unit (x g : ℝ) (hx0 : 0 ≤ x) (hx1 : x ≤ 1) (hg : 0 ≤ g) :
    0 ≤ x ^ g ∧ x ^ g ≤ 1 :=
  ⟨Real.rpow_nonneg hx0 g, Real.rpow_le_one hx0 hx1 hg⟩

theorem self_le_rpow (x g : ℝ) (hx0 : 0 ≤ x) (hx1 : x ≤ 1) (hg1 : g ≤ 1) :
    x ≤ x ^ g := by
  rcases eq_or_lt_of_le hx0 with h | h
  · rw [← h]
    exact Real.rpow_nonneg le_rfl g
  · calc x = x ^ (1 : ℝ) := (Real.rpow_one x).symm
      _ ≤ x ^ g := Real.rpow_le_rpow_of_exponent_ge h hx1 hg1

theorem self_lt_rpow (x g : ℝ) (hx0 : 0 < x) (hx1 : x < 1) (hg1 : g < 1) :
    x < x ^ g :=
  calc x = x ^ (1 : ℝ) := (Real.rpow_one x).symm
    _ < x ^ g := Real.rpow_lt_rpow_of_exponent_gt hx0 hx1 hg1

theorem rpow_le_self (x g : ℝ) (hx0 : 0 ≤ x) (hx1 : x ≤ 1) (hg : 1 ≤ g) :
    x ^ g ≤ x := by
  rcases eq_or_lt_of_le hx0 with h | h
  · rw [← h, Real.zero_rpow (by linarith : g ≠ 0)]
  · calc x ^ g ≤ x ^ (1 : ℝ) := Real.rpow_le_rpow_of_exponent_ge h hx1 hg
      _ = x := Real.rpow_one x

theorem rpow_lt_self (x g : ℝ) (hx0 : 0 < x) (hx1 : x < 1) (hg : 1 < g) :
    x ^ g < x :=
  calc x ^ g < x ^ (1 : ℝ) := Real.rpow_lt_rpow_of_exponent_gt hx0 hx1 hg
    _ = x := Real.rpow_one x

/-! ## Claim theorems -/

/-- Claim C1, counterexample: On the volume `[[[0, 1/2, 1]]]` the extreme values
of `clipped_data` are *not* bounded by the chosen percentile values: the output
minimum 0 lies below `vmin = 1/200`, and the output maximum 1 lies above
`vmax = 199/200`, because `rescale_intensity` stretches the clipped values onto
the float32 output range `[0, 1]`. -/
theorem clipped_data_extremes_cex :
    ¬ (pLow [[[0, 1/2, 1]]] ≤ listMin (flattenV (clipped_data [[[0, 1/2, 1]]])) ∧
       listMax (flattenV (clipped_data [[[0, 1/2, 1]]])) ≤ pHigh [[[0, 1/2, 1]]]) := by
  with_unfolding_all decide

/-- Claim C1, amended: For a non-negative volume, percentile clipping at
`(0.5, 99.5)` bounds the *intermediate clipped* values by the chosen
percentiles `vmin = pLow v` and `vmax = pHigh v`, and the extreme values of
the final output `clipped_data` are bounded by the rescaled output range
`[0, 1]`. -/
theorem clipped_data_output_range (v : Volume ℚ) (x y : ℚ)
    (hpos : ∀ t ∈ flattenV v, 0 ≤ t)
    (hx : x ∈ flattenV (clipped_data v)) (hle : pLow v ≤ pHigh v) :
    (0 ≤ x ∧ x ≤ 1) ∧
    (pLow v ≤ clip y (pLow v) (pHigh v) ∧ clip y (pLow v) (pHigh v) ≤ pHigh v) :=
  ⟨clipped_data_mem_unit v hpos x hx, ⟨le_clip _ _ _ hle, clip_le _ _ _⟩⟩

theorem clipped_data_output_range_witness :
    ((0 : ℚ) ≤ 1 ∧ (1 : ℚ) ≤ 1) ∧
    (pLow [[[0, 1/2, 1]]] ≤ clip 2 (pLow [[[0, 1/2, 1]]]) (pHigh [[[0, 1/2, 1]]]) ∧
     clip 2 (pLow [[[0, 1/2, 1]]]) (pHigh [[[0, 1/2, 1]]]) ≤ pHigh [[[0, 1/2, 1]]]) :=
  clipped_data_output_range [[[0, 1/2, 1]]] 1 2
    (by with_unfolding_all decide)
    (by with_unfolding_all decide)
    (by with_unfolding_all decide)

/-- Claim C2, counterexample: A volume whose pixel values lie in `[0, 1]` and are
not all equal (here `[[[0, 1]]]`, with values `0` and `1`) on which gamma
correction with exponent `1/2 < 1` does *not* strictly increase the mean
intensity: `0` and `1` are fixed points of the power law, so the mean is
unchanged. -/
theorem adjust_gamma_mean_cex :
    flattenV ([[[(0 : ℝ), 1]]] : Volume ℝ) = [0, 1] ∧
    ¬ vmean [[[(0 : ℝ), 1]]] <
        vmean (adjust_gamma [[[(0 : ℝ), 1]]] (1/2) 1) := by
  constructor
  · rfl
  · have hg : vmean (adjust_gamma [[[(0 : ℝ), 1]]] (1/2) 1) = 1/2 := by
      show ((0 : ℝ) ^ (1/2 : ℝ) * 1 + ((1 : ℝ) ^ (1/2 : ℝ) * 1 + 0)) / 2 = 1/2
      rw [Real.zero_rpow (by norm_num), Real.one_rpow]
      norm_num
    have hv : vmean [[[(0 : ℝ), 1]]] = 1/2 := by
      show ((0 : ℝ) + (1 + 0)) / 2 = 1/2
      norm_num
    rw [hg, hv]
    exact lt_irrefl _

/-- Claim C2, amended: For a volume whose pixel values lie in `[0, 1]` with at
least one pixel strictly between 0 and 1, `adjust_gamma` with a valid exponent
`0 ≤ gamma < 1` produces a strictly greater mean intensity than the input, and
with exponent `gamma > 1` a strictly smaller one. -/
theorem adjust_gamma_mean_monotone (v : Volume ℝ) (g : ℝ)
    (hrange : ∀ x ∈ flattenV v, 0 ≤ x ∧ x ≤ 1)
    (hmid : ∃ x ∈ flattenV v, 0 < x ∧ x < 1) :
    (0 ≤ g → g < 1 → vmean v < vmean (adjust_gamma v g 1)) ∧
    (1 < g → vmean (adjust_gamma v g 1) < vmean v) := by
  obtain ⟨x0, hx0mem, hx0a, hx0b⟩ := hmid
  have hne : flattenV v ≠ [] := List.ne_nil_of_mem hx0mem
  have hlen : (0 : ℝ) < ((flattenV v).length : ℝ) := by
    have := List.length_pos.mpr hne
    exact_mod_cast this
  have hflat : flattenV (adjust_gamma v g 1) =
      (flattenV v).map (fun x => x ^ g * 1) := flattenV_vmap _ v
  constructor
  · intro hg0 hg1
    have hsum : (flattenV v).sum < ((flattenV v).map (fun x => x ^ g * 1)).sum := by
      have h := List.sum_lt_sum (fun x : ℝ => x) (fun x => x ^ g * 1)
        (fun x hx => by
          simp only [mul_one]
          exact self_le_rpow x g (hrange x hx).1 (hrange x hx).2 (le_of_lt hg1))
        ⟨x0, hx0mem, by simp only [mul_one]; exact self_lt_rpow x0 g hx0a hx0b hg1⟩
      simpa using h
    unfold vmean
    rw [hflat, List.length_map]
    exact div_lt_div_of_pos_right hsum hlen
  · intro hg1
    have hsum : ((flattenV v).map (fun x => x ^ g * 1)).sum < (flattenV v).sum := by
      have h := List.sum_lt_sum (fun x : ℝ => x ^ g * 1) (fun x : ℝ => x)
        (fun x hx => by
          simp only [mul_one]
          exact rpow_le_self x g (hrange x hx).1 (hrange x hx).2 (le_of_lt hg1))
        ⟨x0, hx0mem, by simp only [mul_one]; exact rpow_lt_self x0 g hx0a hx0b hg1⟩
      simpa using h
    unfold vmean
    rw [hflat, List.length_map]
    exact div_lt_div_of_pos_right hsum hlen

theorem adjust_gamma_mean_monotone_witness :
    ((0 : ℝ) ≤ 1/2 → (1/2 : ℝ) < 1 →
      vmean [[[(0 : ℝ), 1/2, 1]]] <
        vmean (adjust_gamma [[[(0 : ℝ), 1/2, 1]]] (1/2) 1)) ∧
    (1 < (1/2 : ℝ) →
      vmean (adjust_gamma [[[(0 : ℝ), 1/2, 1]]] (1/2) 1) <
        vmean [[[(0 : ℝ), 1/2, 1]]]) :=
  adjust_gamma_mean_monotone [[[(0 : ℝ), 1/2, 1]]] (1/2)
    (by
      intro x hx
      have hx' : x = 0 ∨ x = 1/2 ∨ x = 1 := by simpa [flattenV] using hx
      rcases hx' with rfl | rfl | rfl <;> norm_num)
    ⟨1/2, by
      constructor
      · show (1/2 : ℝ) ∈ [0, 1/2, 1]
        simp
      · norm_num⟩

/-- Claim C3: Calling the 2D-only display routine `io.imshow` on a 3D grayscale
volume of shape `(p, r, c)` (where `c` is a column count, not a 3- or
4-channel dimension) raises the type/shape error, and the try/except of cell 6
catches it and prints its message — the guarded call returns normally with the
message instead of propagating the error. -/
theorem imshow_on_volume_caught (p r c : ℕ) (h3 : c ≠ 3) (h4 : c ≠ 4) :
    imshow [p, r, c] = Except.error imshowMsg ∧
    imshowGuarded [p, r, c] = some imshowMsg := by
  have herr : imshow [p, r, c] = Except.error imshowMsg := by
    unfold imshow
    rw [if_neg (by simp), if_neg (by simp [h3, h4])]
  exact ⟨herr, by unfold imshowGuarded; rw [herr]⟩

theorem imshow_on_volume_caught_witness :
    imshow [60, 256, 256] = Except.error imshowMsg ∧
    imshowGuarded [60, 256, 256] = some imshowMsg :=
  imshow_on_volume_caught 60 256 256 (by decide) (by decide)

/-- Claim C4: Every value of the array returned by `exposure.equalize_hist`
applied to a volume lies in the closed interval `[0, 1]`. -/
theorem equalized_data_unit_range (v : Volume ℚ) (x : ℚ)
    (hx : x ∈ flattenV (equalize_hist v)) : 0 ≤ x ∧ x ≤ 1 :=
  equalize_hist_mem_unit v x hx

set_option maxRecDepth 40000 in
theorem equalized_data_unit_range_witness : 0 ≤ (1/2 : ℚ) ∧ (1/2 : ℚ) ≤ 1 :=
  equalized_data_unit_range [[[0, 1]]] (1/2) (by with_unfolding_all decide)

/-- Claim C5: Each of the three exposure transforms — `adjust_gamma`,
`equalize_hist`, and the percentile-based `rescale_intensity` pipeline
`clipped_data` — returns a new array with the same three-dimensional shape as
its input.  (The transforms are pure functions of the input value, so the
input volume's values are unchanged by construction in this embedding, as the
non-mutating library calls leave their argument array intact.) -/
theorem transforms_preserve_shape (v : Volume ℚ) (w : Volume ℝ) (g gn : ℝ) :
    shapeOf (adjust_gamma w g gn) = shapeOf w ∧
    shapeOf (equalize_hist v) = shapeOf v ∧
    shapeOf (clipped_data v) = shapeOf v := by
  refine ⟨shapeOf_vmap _ w, ?_, ?_⟩
  · unfold equalize_hist
    exact shapeOf_vmap _ v
  · simp only [clipped_data, rescale_intensity]
    split
    · exact shapeOf_vmap _ v
    · exact shapeOf_vmap _ v

/-- Claim C6: Extracting channel 1 from a 4D stack of shape `(p, ch, r, c)` with
at least two channels and converting with `util.img_as_float` yields an array
with exactly three axes, of shape `(n_plane, n_row, n_col) = (p, r, c)`,
indexed by (plane, row, column). -/
theorem loadData_three_axes (a : Stack4 ℕ) (p ch r c : ℕ)
    (ha : HasShape4 a p ch r c) (hch : 2 ≤ ch) :
    HasShape3 (loadData a) p r c := by
  obtain ⟨hlen, hmem⟩ := ha
  unfold HasShape3 loadData img_as_float
  rw [shapeOf_vmap]
  unfold shapeOf extractChannel
  rw [List.map_map]
  apply List.eq_replicate_iff.mpr
  constructor
  · simp [hlen]
  · intro b hb
    obtain ⟨chans, hchans, rfl⟩ := List.mem_map.mp hb
    obtain ⟨hclen, him⟩ := hmem chans hchans
    have h1 : 1 < chans.length := by omega
    simp only [Function.comp_apply]
    rw [List.getD_eq_getElem _ _ h1]
    obtain ⟨hr, hrow⟩ := him _ (List.getElem_mem h1)
    apply List.eq_replicate_iff.mpr
    constructor
    · simp [hr]
    · intro n hn
      obtain ⟨row, hrowmem, rfl⟩ := List.mem_map.mp hn
      exact hrow row hrowmem

theorem loadData_three_axes_witness :
    HasShape3 (loadData [[[[0, 1]], [[2, 3]]]]) 1 1 2 :=
  loadData_three_axes [[[[0, 1]], [[2, 3]]]] 1 2 1 2 (by decide) (by decide)

/-- Claim C7, counterexample: For a volume with 61 planes and the default
`step = 2`, the slicing `im3d[::2]` selects 31 slices but the fixed 5×6 grid
holds only 30 subplots, so `display` does *not* render the slices taken at
every `step`-th plane: the 31st selected slice is dropped by the `zip`. -/
theorem display_renders_all_cex :
    ¬ ((display (List.replicate 61 [[(0 : ℚ)]]) 2).map Prod.fst =
        everyNth (List.replicate 61 [[(0 : ℚ)]]) 2) := by
  with_unfolding_all decide

/-- Claim C7, amended: For every 3D volume, `display` renders the slices taken
at every `step`-th plane *truncated to the first 30* (the capacity of the
fixed 5-by-6 grid of subplots), and each rendered subplot uses the same shared
intensity bounds `vmin = im3d.min()` and `vmax = im3d.max()`. -/
theorem display_grid_spec (im3d : Volume ℚ) (step : ℕ) (e : Image ℚ × ℚ × ℚ)
    (he : e ∈ display im3d step) :
    (display im3d step).map Prod.fst = (everyNth im3d step).take 30 ∧
    e.2.1 = listMin (flattenV im3d) ∧ e.2.2 = listMax (flattenV im3d) := by
  constructor
  · simp [display, List.map_map, Function.comp_def]
  · simp only [display] at he
    obtain ⟨im, _, rfl⟩ := List.mem_map.mp he
    exact ⟨rfl, rfl⟩

theorem display_grid_spec_witness :
    (display [[[(0 : ℚ)]], [[1]]] 2).map Prod.fst =
      (everyNth ([[[(0 : ℚ)]], [[1]]] : Volume ℚ) 2).take 30 ∧
    ([[(0 : ℚ)]], (0 : ℚ), (1 : ℚ)).2.1 =
      listMin (flattenV ([[[(0 : ℚ)]], [[1]]] : Volume ℚ)) ∧
    ([[(0 : ℚ)]], (0 : ℚ), (1 : ℚ)).2.2 =
      listMax (flattenV ([[[(0 : ℚ)]], [[1]]] : Volume ℚ)) :=
  display_grid_spec [[[(0 : ℚ)]], [[1]]] 2 ([[(0 : ℚ)]], (0 : ℚ), (1 : ℚ))
    (by with_unfolding_all decide)

/-- Claim C8: After loading with `util.img_as_float`, every pixel value of the
volume lies in `[0, 1]`, and this range invariant is preserved by each derived
array: the gamma-corrected (with a valid exponent `gamma ≥ 0`), the
histogram-equalized, and the percentile-rescaled volumes all have every value
in `[0, 1]`. -/
theorem unit_range_invariant (raw : Volume ℕ) (g : ℝ) (x : ℚ) (y : ℝ) (z w : ℚ)
    (hraw : ∀ n ∈ flattenV raw, n < 65536) (hg : 0 ≤ g)
    (hx : x ∈ flattenV (img_as_float raw))
    (hy : y ∈ flattenV (adjust_gamma (toReal (img_as_float raw)) g 1))
    (hz : z ∈ flattenV (equalize_hist (img_as_float raw)))
    (hw : w ∈ flattenV (clipped_data (img_as_float raw))) :
    (0 ≤ x ∧ x ≤ 1) ∧ (0 ≤ y ∧ y ≤ 1) ∧ (0 ≤ z ∧ z ≤ 1) ∧ (0 ≤ w ∧ w ≤ 1) := by
  have hunit := img_as_float_mem_unit raw hraw
  refine ⟨hunit x hx, ?_, equalize_hist_mem_unit _ z hz,
    clipped_data_mem_unit _ (fun t ht => (hunit t ht).1) w hw⟩
  unfold adjust_gamma toReal at hy
  rw [flattenV_vmap, flattenV_vmap, List.map_map] at hy
  obtain ⟨q, hq, rfl⟩ := List.mem_map.mp hy
  have hb := hunit q hq
  have h0 : (0 : ℝ) ≤ (q : ℝ) := by exact_mod_cast hb.1
  have h1 : (q : ℝ) ≤ 1 := by exact_mod_cast hb.2
  have hr := rpow_mem_unit (q : ℝ) g h0 h1 hg
  simp only [Function.comp_apply, mul_one]
  exact hr

set_option maxRecDepth 40000 in
theorem unit_range_invariant_witness :
    ((0 : ℚ) ≤ 0 ∧ (0 : ℚ) ≤ 1) ∧
    (0 ≤ (0 : ℝ) ^ ((1/2 : ℝ)) * 1 ∧ (0 : ℝ) ^ ((1/2 : ℝ)) * 1 ≤ 1) ∧
    (0 ≤ (1/2 : ℚ) ∧ (1/2 : ℚ) ≤ 1) ∧ (0 ≤ (1 : ℚ) ∧ (1 : ℚ) ≤ 1) :=
  unit_range_invariant [[[0, 65535]]] (1/2) 0 ((0 : ℝ) ^ ((1/2 : ℝ)) * 1) (1/2) 1
    (by with_unfolding_all decide)
    (by norm_num)
    (by with_unfolding_all decide)
    (by norm_num [adjust_gamma, toReal, img_as_float, vmap, flattenV])
    (by with_unfolding_all decide)
    (by with_unfolding_all decide)

/-- Claim C9: In `explore_slices`, the slider's plane index is constrained to
the range `(0, N - 1)` with `N = len(data)`, and for every valid slider
position the callback's indexing `data[plane]` is within bounds, so it never
raises an out-of-range error. -/
theorem explore_slices_in_bounds (data : Volume ℚ) (p : ℤ)
    (hp : sliderRangeValid data.length p) :
    (display_slice data p.toNat).isSome = true := by
  obtain ⟨h0, h1⟩ := hp
  have hlt : p.toNat < data.length := by omega
  unfold display_slice
  rw [List.getElem?_eq_getElem hlt]
  rfl

theorem explore_slices_in_bounds_witness :
    (display_slice (List.replicate 60 [[(0 : ℚ)]]) (Int.toNat 34)).isSome = true :=
  explore_slices_in_bounds (List.replicate 60 [[(0 : ℚ)]]) 34 (by decide)

/-- Claim C10: `display` never fails on a mismatch between the number of
selected slices and the 30 grid cells: it shows exactly
`min 30 ⌈len(im3d) / step⌉` slices — silently dropping selected planes beyond
the 30 available subplots, and leaving trailing subplots empty when there are
fewer selected slices. -/
theorem display_slice_count (im3d : Volume ℚ) (step : ℕ) (hs : 1 ≤ step) :
    (display im3d step).length = min 30 ((im3d.length + step - 1) / step) := by
  unfold display
  rw [List.length_map, List.length_take]
  congr 1
  unfold everyNth
  rw [everyNthAux_length step hs im3d 0 (by omega)]
  congr 1
  omega

theorem display_slice_count_witness :
    (display (List.replicate 61 [[(0 : ℚ)]]) 2).length =
      min 30 (((List.replicate 61 ([[(0 : ℚ)]] : Image ℚ)).length + 2 - 1) / 2) :=
  display_slice_count (List.replicate 61 [[(0 : ℚ)]]) 2 (by decide)

end Cells3D
